import Mathlib

/-!
Verification of the `threesixty` parser (`src/threesixty/threesixty.py`).

The development shallowly embeds the data model and the operations of the
source file:

* JSON documents are modelled by the inductive type `JSON` (numbers are
  modelled as integers; the claims under study only involve integer scalars).
* `Grant.to_flat` (the nested-to-flat transformation) is modelled by the
  mutually recursive `flattenVal` / `flattenList` / `flattenObj`, together
  with the `OrderedDict` wrapper `odBuild`.
* `ThreeSixtyGiving.to_flatfile` is modelled by `to_flatfile`.
* `ThreeSixtyGiving.convert_fieldnames` is modelled by `convert_fieldnames`;
  the Python `re` library (an external collaborator of the source) is
  modelled on the pattern fragment the program generates and uses:
  literal characters, the metacharacter `.`, and the capture group
  `([0-9]+)`, with greedy backtracking semantics (`reMatch`), and
  single-digit backreferences in replacement templates (`instTemplate`).
* `fetch_schema`'s inner `recurse_names` is modelled by `recurse_names`
  over a schema-property tree `SchemaProp`.
* `ThreeSixtyGiving.get_errors` is modelled by `get_errors` over abstract
  validator errors `VError` (the `jsonschema` engine being the external
  collaborator, its raw error stream is a parameter).
* `ThreeSixtyGiving.from_json` is modelled by `from_json`, and the
  `from_file` filetype dispatch by `from_file`.
-/

namespace ThreeSixty

/-- JSON values as loaded by `json.load`.  Objects keep their (insertion)
key order, matching Python dicts; numbers are modelled as integers. -/
inductive JSON : Type where
  | null : JSON
  | bool : Bool → JSON
  | num : Int → JSON
  | str : String → JSON
  | arr : List JSON → JSON
  | obj : List (String × JSON) → JSON

/-- `OrderedDict` assignment `d[k] = v`: if the key is present its value is
replaced in place, otherwise the pair is appended. -/
def odInsert {α : Type} (l : List (String × α)) (k : String) (v : α) :
    List (String × α) :=
  if l.any (fun kv => kv.1 = k) then
    l.map (fun kv => if kv.1 = k then (kv.1, v) else kv)
  else l ++ [(k, v)]

/-- `OrderedDict(pairs)`: build an ordered dict from a pair list by repeated
assignment. -/
def odBuild {α : Type} (ps : List (String × α)) : List (String × α) :=
  ps.foldl (fun acc kv => odInsert acc kv.1 kv.2) []

mutual
/-- One key/value step of `Grant.to_flat`'s inner `flatten`: a list or dict
value recurses with the extended key, any other value is emitted as a
`(new_key, value)` pair unchanged. -/
def flattenVal : JSON → String → List (String × JSON)
  | JSON.arr xs, key => flattenList xs 0 key
  | JSON.obj kvs, key => flattenObj kvs key
  | v, key => [(key, v)]

/-- `flatten` on a list value: the list is traversed as the mapping
`{str(0): x0, str(1): x1, ...}` (the `dict(zip(map(str, range(len(vals))),
vals))` conversion), in order. -/
def flattenList : List JSON → Nat → String → List (String × JSON)
  | [], _, _ => []
  | v :: rest, i, pre =>
    let new_key := if pre ≠ "" then pre ++ "." ++ toString i else toString i
    flattenVal v new_key ++ flattenList rest (i + 1) pre

/-- `flatten` on a dict value: each pair gets the key
`prefix + "." + k` (or just `k` when the prefix is empty). -/
def flattenObj : List (String × JSON) → String → List (String × JSON)
  | [], _ => []
  | (k, v) :: rest, pre =>
    let new_key := if pre ≠ "" then pre ++ "." ++ k else k
    flattenVal v new_key ++ flattenObj rest pre
end

/-- `Grant.to_flat`: flatten the grant's attribute dict (top-level call has
the empty prefix) and wrap the resulting pair list as an `OrderedDict`. -/
def to_flat (g : List (String × JSON)) : List (String × JSON) :=
  odBuild (flattenObj g "")

/-- The fieldname-accumulation loop of `to_flatfile`:
`for f in keys: if f not in fieldnames: fieldnames.append(f)`. -/
def addFields (fieldnames : List String) (ks : List String) : List String :=
  ks.foldl (fun fns f => if f ∈ fns then fns else fns ++ [f]) fieldnames

/-- The loop of `ThreeSixtyGiving.to_flatfile` over the grants. -/
def to_flatfileAux :
    List (List (String × JSON)) → List (List (String × JSON)) → List String →
    List (List (String × JSON)) × List String
  | [], data, fieldnames => (data, fieldnames)
  | g :: rest, data, fieldnames =>
    let g_flat := to_flat g
    to_flatfileAux rest (data ++ [g_flat])
      (addFields fieldnames (g_flat.map Prod.fst))

/-- `ThreeSixtyGiving.to_flatfile`: flatten every grant in order and collect
the union of the flat fieldnames in first-seen order. -/
def to_flatfile (grants : List (List (String × JSON))) :
    List (List (String × JSON)) × List String :=
  to_flatfileAux grants [] []

/-! ### The regex collaborator

`convert_fieldnames` calls Python's `re.fullmatch` and `re.sub` on the
patterns produced by `recurse_names`.  Those patterns are concatenations of
literal characters, the metacharacter `.` (any character) and the capture
group `([0-9]+)`; the replacement templates are literal characters plus
single-digit backreferences `\1`, `\2`, ….  The model below implements
Python's leftmost/greedy backtracking semantics on exactly this fragment:
`parsePattern` tokenises a pattern string, `reMatch` is anchored matching of
the whole string (`re.fullmatch`) returning the captured groups, and
`re_sub` instantiates a template with those groups (in `convert_fieldnames`,
`re.sub` is only reached when `re.fullmatch` has succeeded, in which case
the single leftmost greedy match is the whole string). -/

/-- Tokens of the pattern fragment generated by `recurse_names`. -/
inductive Tok : Type where
  | lit : Char → Tok
  | anyChar : Tok
  | group : Tok

/-- Tokenise a pattern string: `([0-9]+)` becomes a capture group, `.`
matches any character, every other character is a literal. -/
def parsePattern : List Char → List Tok
  | '(' :: '[' :: '0' :: '-' :: '9' :: ']' :: '+' :: ')' :: rest =>
    Tok.group :: parsePattern rest
  | '.' :: rest => Tok.anyChar :: parsePattern rest
  | c :: rest => Tok.lit c :: parsePattern rest
  | [] => []

/-- Greedy backtracking for a `([0-9]+)` group: try to capture `n` digits,
retrying with one digit fewer on failure of the rest of the match
(`f` matches the remaining tokens). -/
def tryLens (f : List Char → Option (List String)) (s : List Char) :
    Nat → Option (List String)
  | 0 => none
  | n + 1 =>
    match f (s.drop (n + 1)) with
    | some caps => some (String.mk (s.take (n + 1)) :: caps)
    | none => tryLens f s n

/-- Anchored match of a token list against a whole string, returning the
captured groups in order (the semantics of `re.fullmatch` on the
fragment). -/
def reMatch : List Tok → List Char → Option (List String)
  | [], s => if s.isEmpty then some [] else none
  | Tok.lit _ :: _, [] => none
  | Tok.lit c :: ts, d :: ds => if d = c then reMatch ts ds else none
  | Tok.anyChar :: _, [] => none
  | Tok.anyChar :: ts, _ :: ds => reMatch ts ds
  | Tok.group :: ts, s =>
    tryLens (reMatch ts) s (s.takeWhile Char.isDigit).length

/-- `re.fullmatch(pat, s)`: `some groups` on a match of the entire string,
`none` otherwise. -/
def re_fullmatch (pat s : String) : Option (List String) :=
  reMatch (parsePattern pat.data) s.data

/-- Instantiate a replacement template: `\d` is replaced by captured group
`d`, every other character is copied. -/
def instTemplate : List Char → List String → List Char
  | [], _ => []
  | '\\' :: c :: rest, gs =>
    if c.isDigit then (gs.getD (c.toNat - 49) "").data ++ instTemplate rest gs
    else '\\' :: c :: instTemplate rest gs
  | c :: rest, gs => c :: instTemplate rest gs

/-- `re.sub(pat, repl, s)` in the situation `convert_fieldnames` uses it:
the pattern fully matches `s`, so the substitution replaces the whole
string by the instantiated template. -/
def re_sub (pat repl s : String) : String :=
  match re_fullmatch pat s with
  | some gs => String.mk (instTemplate repl.data gs)
  | none => s

/-- The body of `convert_fieldnames`' outer loop for one rename rule
`(old, new)`: every field whose *key* fully matches `old` has its mapped
value overwritten by `re.sub(old, new, field)` applied to the key. -/
def ruleStep (fns : List (String × String)) (rule : String × String) :
    List (String × String) :=
  fns.map (fun kv =>
    if (re_fullmatch rule.1 kv.1).isSome then (kv.1, re_sub rule.1 rule.2 kv.1)
    else kv)

/-- `ThreeSixtyGiving.convert_fieldnames`: start from
`OrderedDict(zip(fieldnames, fieldnames))` and apply every rename rule in
derivation order. -/
def convert_fieldnames (replace_names : List (String × String))
    (fieldnames : List String) : List (String × String) :=
  replace_names.foldl ruleStep (odBuild (fieldnames.map (fun f => (f, f))))

/-- The effect of one rename rule on the value mapped to the original field
name `f`: overwrite when `f` matches, keep the current value otherwise. -/
def applyRule (f cur : String) (rule : String × String) : String :=
  if (re_fullmatch rule.1 f).isSome then re_sub rule.1 rule.2 f else cur

/-- The cumulative effect of a rule list on one field name: the last rule
whose pattern fully matches the *original* name wins. -/
def applyRules (rules : List (String × String)) (f : String) : String :=
  rules.foldl (applyRule f) f

/-! ### Schema traversal (`recurse_names`) -/

/-- One property node of the dereferenced schema, as read by
`recurse_names`: its optional `title`, its optional `type`, and the
property list `items.properties` (empty when `items` or `properties` is
missing, matching `prop.get("items", {}).get("properties", {})`). -/
inductive SchemaProp : Type where
  | mk : Option String → Option String → List (String × SchemaProp) → SchemaProp

/-- The `title` field of a schema property. -/
def SchemaProp.title : SchemaProp → Option String
  | SchemaProp.mk t _ _ => t

/-- The `type` field of a schema property. -/
def SchemaProp.ptype : SchemaProp → Option String
  | SchemaProp.mk _ t _ => t

/-- The `items.properties` list of a schema property. -/
def SchemaProp.itemsProps : SchemaProp → List (String × SchemaProp)
  | SchemaProp.mk _ _ ps => ps

/-- `fetch_schema`'s inner `recurse_names(props, replace_names, prefix_k,
prefix_v)`: build the key pattern and value template for each property in
declared order; array-typed properties recurse into `items.properties`,
all others record the pair by `OrderedDict` assignment. -/
def recurse_names :
    List (String × SchemaProp) → List (String × String) → String → String →
    List (String × String)
  | [], replace_names, _, _ => replace_names
  | (i, SchemaProp.mk title ptype iprops) :: rest, replace_names, pk, pv =>
    let name_k := if pk ≠ "" then pk ++ ".([0-9]+)." ++ i else i
    let name_v :=
      if pv ≠ "" then pv ++ ":\\1:" ++ (title.getD i) else title.getD i
    let rn :=
      if ptype = some "array" then recurse_names iprops replace_names name_k name_v
      else odInsert replace_names name_k name_v
    recurse_names rest rn pk pv

/-! ### Validation (`get_errors`, `from_json`) -/

/-- A validation error as produced by the `jsonschema` engine: the failing
keyword (`e.validator`), the value of that keyword in the schema
(`e.validator_value`) and a message. -/
structure VError : Type where
  validator : String
  validator_value : JSON
  message : String

/-- The Python comparison `x == {'format': 'date-time'}`: a dict equals the
singleton `{'format': 'date-time'}` exactly when it has that single pair. -/
def eqDateTimeSchema : JSON → Bool
  | JSON.obj [("format", JSON.str "date-time")] => true
  | _ => false

/-- The suppression test of `get_errors`: the failing keyword is `oneOf`
and the first alternative (`e.validator_value[0]`) is exactly
`{'format': 'date-time'}`. -/
def suppressedError (e : VError) : Bool :=
  e.validator = "oneOf" &&
    (match e.validator_value with
     | JSON.arr (s :: _) => eqDateTimeSchema s
     | _ => false)

/-- `ThreeSixtyGiving.get_errors`: yield every engine error except the
suppressed ones. -/
def get_errors (errors : List VError) : List VError :=
  errors.filter (fun e => !suppressedError e)

/-- The state of a loaded `ThreeSixtyGiving` object: the document, the
surfaced errors and the validity flag. -/
structure Dataset : Type where
  data : JSON
  errors : List VError
  valid : Bool

/-- `ThreeSixtyGiving.from_json`, given the parsed document and the raw
error stream of the external validator: surface the filtered errors, raise
`ValueError("Invalid file")` when any remain, and otherwise return the
object holding the document, the (empty) error list, and
`valid = (len(errors) == 0)`. -/
def from_json (data : JSON) (engineErrors : List VError) :
    Except String Dataset :=
  let errs := get_errors engineErrors
  if errs.isEmpty then Except.ok ⟨data, errs, errs.length == 0⟩
  else Except.error "Invalid file"

/-! ### Filetype dispatch (`from_file`) -/

/-- The per-filetype loaders `from_file` can dispatch to. -/
inductive Loader : Type where
  | json : Loader
  | csv : Loader
  | excel : Loader

/-- The dispatch of `ThreeSixtyGiving.from_file` on the `filetype` string.
The body is a bare `if/elif` chain with no `else`, so an unrecognised tag
raises nothing and the function returns `None`; `Except.error` (unused
here) marks where a raised error would go. -/
def from_file (filetype : String) : Except String (Option Loader) :=
  if filetype = "json" then Except.ok (some Loader.json)
  else if filetype = "csv" then Except.ok (some Loader.csv)
  else if filetype = "xlsx" ∨ filetype = "xls" ∨ filetype = "excel" then
    Except.ok (some Loader.excel)
  else Except.ok none

/-! ### Traversal paths of a record

To reason about the flat keys produced by `Grant.to_flat` we describe each
scalar position of a record by its traversal path (the list of dict keys and
stringified list indices leading to it), and the flat key as the
dot-joining of that path. -/

mutual
/-- The traversal paths to the scalar positions of a value. -/
def pathsVal : JSON → List (List String)
  | JSON.arr xs => pathsList xs 0
  | JSON.obj kvs => pathsObj kvs
  | _ => [[]]

/-- Traversal paths of a list value, indices starting at `i`. -/
def pathsList : List JSON → Nat → List (List String)
  | [], _ => []
  | v :: rest, i =>
    (pathsVal v).map (fun p => toString i :: p) ++ pathsList rest (i + 1)

/-- Traversal paths of a dict value. -/
def pathsObj : List (String × JSON) → List (List String)
  | [] => []
  | (k, v) :: rest => (pathsVal v).map (fun p => k :: p) ++ pathsObj rest
end

/-- Extending a flat-key prefix by one path segment, exactly as the
flattener forms `new_key`. -/
def joinKey (pre seg : String) : String :=
  if pre ≠ "" then pre ++ "." ++ seg else seg

/-- The flat key of a traversal path under a prefix. -/
def keyOf (pre : String) (p : List String) : String := p.foldl joinKey pre

/-- A usable path segment: nonempty and containing no `.`. -/
def goodSeg (s : String) : Prop := s ≠ "" ∧ ∀ c ∈ s.data, c ≠ '.'

/-- A path of usable segments. -/
def goodPath (p : List String) : Prop := ∀ s ∈ p, goodSeg s

mutual
/-- Key hygiene of a record value: every dict anywhere in it has pairwise
distinct keys (automatic for Python dicts) which are nonempty and contain
no `.` character. -/
def cleanVal : JSON → Bool
  | JSON.arr xs => cleanList xs
  | JSON.obj kvs => cleanObj kvs
  | _ => true

/-- Key hygiene of the values of a list. -/
def cleanList : List JSON → Bool
  | [] => true
  | v :: rest => cleanVal v && cleanList rest

/-- Key hygiene of a dict: each key nonempty, dot-free and not repeated
below, each value clean. -/
def cleanObj : List (String × JSON) → Bool
  | [] => true
  | (k, v) :: rest =>
    (k ≠ "" : Bool) && k.data.all (fun c => c ≠ '.') &&
      !(rest.any (fun kv => kv.1 = k)) && cleanVal v && cleanObj rest
end

/-- The dot-joined character data of a path tail: each segment is preceded
by a dot. -/
def encTail : List String → List Char
  | [] => []
  | s :: p => '.' :: (s.data ++ encTail p)

/-! ### Facts about decimal index strings

The flattener keys list elements by `str(index)`; these lemmas establish
that such index strings are nonempty, dot-free and pairwise distinct. -/

lemma toDigitsCore_append (n : Nat) :
    ∀ f ds, n < f →
      Nat.toDigitsCore 10 f n ds = Nat.toDigitsCore 10 (n + 1) n [] ++ ds := by
  induction n using Nat.strong_induction_on with
  | _ n ih =>
    intro f ds h
    match f, h with
    | f + 1, _ =>
      by_cases hn : n / 10 = 0
      · simp [Nat.toDigitsCore, hn]
      · have h10 : 10 ≤ n := by
          by_contra hlt
          exact hn (Nat.div_eq_of_lt (by omega))
        have hdiv_lt : n / 10 < n := Nat.div_lt_self (by omega) (by omega)
        have step1 : Nat.toDigitsCore 10 (f + 1) n ds
            = Nat.toDigitsCore 10 f (n / 10) (Nat.digitChar (n % 10) :: ds) := by
          simp [Nat.toDigitsCore, hn]
        have step2 : Nat.toDigitsCore 10 (n + 1) n []
            = Nat.toDigitsCore 10 n (n / 10) [Nat.digitChar (n % 10)] := by
          simp [Nat.toDigitsCore, hn]
        rw [step1, ih (n / 10) hdiv_lt f _ (by omega), step2,
          ih (n / 10) hdiv_lt n _ (by omega)]
        simp

lemma toDigits_lt_ten (n : Nat) (h : n < 10) :
    Nat.toDigits 10 n = [Nat.digitChar n] := by
  have hn : n / 10 = 0 := Nat.div_eq_of_lt h
  simp [Nat.toDigits, Nat.toDigitsCore, hn, Nat.mod_eq_of_lt h]

lemma toDigits_ge_ten (n : Nat) (h : 10 ≤ n) :
    Nat.toDigits 10 n
      = Nat.toDigits 10 (n / 10) ++ [Nat.digitChar (n % 10)] := by
  have h1 : 1 ≤ n / 10 := (Nat.one_le_div_iff (by omega)).mpr h
  have hn : ¬ n / 10 = 0 := by omega
  have hdiv_lt : n / 10 < n := Nat.div_lt_self (by omega) (by omega)
  show Nat.toDigitsCore 10 (n + 1) n [] = _
  have step : Nat.toDigitsCore 10 (n + 1) n []
      = Nat.toDigitsCore 10 n (n / 10) [Nat.digitChar (n % 10)] := by
    simp [Nat.toDigitsCore, hn]
  rw [step, toDigitsCore_append (n / 10) n _ (by omega)]
  rfl

lemma digitChar_isDigit : ∀ m, m < 10 → (Nat.digitChar m).isDigit = true := by
  decide

lemma digitChar_injOn :
    ∀ a, a < 10 → ∀ b, b < 10 → Nat.digitChar a = Nat.digitChar b → a = b := by
  decide

lemma toDigits_ne_nil (n : Nat) : Nat.toDigits 10 n ≠ [] := by
  by_cases h : n < 10
  · rw [toDigits_lt_ten n h]; simp
  · rw [toDigits_ge_ten n (by omega)]; simp

lemma toDigits_isDigit (n : Nat) :
    ∀ c ∈ Nat.toDigits 10 n, c.isDigit = true := by
  induction n using Nat.strong_induction_on with
  | _ n ih =>
    by_cases h : n < 10
    · rw [toDigits_lt_ten n h]
      intro c hc
      rw [List.mem_singleton] at hc
      exact hc ▸ digitChar_isDigit n h
    · rw [toDigits_ge_ten n (by omega)]
      intro c hc
      rcases List.mem_append.mp hc with hc | hc
      · exact ih (n / 10) (Nat.div_lt_self (by omega) (by omega)) c hc
      · rw [List.mem_singleton] at hc
        exact hc ▸ digitChar_isDigit (n % 10) (Nat.mod_lt n (by omega))

lemma toDigits_inj :
    ∀ n m, Nat.toDigits 10 n = Nat.toDigits 10 m → n = m := by
  intro n
  induction n using Nat.strong_induction_on with
  | _ n ih =>
    intro m heq
    by_cases hn : n < 10 <;> by_cases hm : m < 10
    · rw [toDigits_lt_ten n hn, toDigits_lt_ten m hm] at heq
      exact digitChar_injOn n hn m hm (List.singleton_injective heq)
    · rw [toDigits_lt_ten n hn, toDigits_ge_ten m (by omega)] at heq
      have := congrArg List.length heq
      simp at this
      exact absurd this (toDigits_ne_nil (m / 10))
    · rw [toDigits_ge_ten n (by omega), toDigits_lt_ten m hm] at heq
      have := congrArg List.length heq
      simp at this
      exact absurd this (toDigits_ne_nil (n / 10))
    · rw [toDigits_ge_ten n (by omega), toDigits_ge_ten m (by omega)] at heq
      have hparts := List.append_inj' heq rfl
      have hdiv : n / 10 = m / 10 :=
        ih (n / 10) (Nat.div_lt_self (by omega) (by omega)) (m / 10)
          hparts.1
      have hmod : n % 10 = m % 10 :=
        digitChar_injOn (n % 10) (by omega) (m % 10) (by omega)
          (List.singleton_injective hparts.2)
      omega

lemma natStr_data (n : Nat) : (toString n).data = Nat.toDigits 10 n := rfl

lemma natStr_ne_empty (n : Nat) : toString n ≠ "" := by
  intro h
  exact toDigits_ne_nil n (by rw [← natStr_data, h])

lemma natStr_no_dot (n : Nat) : ∀ c ∈ (toString n).data, c ≠ '.' := by
  intro c hc heq
  have := toDigits_isDigit n c (by rw [← natStr_data]; exact hc)
  rw [heq] at this
  exact absurd this (by decide)

lemma natStr_inj (n m : Nat) (h : toString n = toString m) : n = m :=
  toDigits_inj n m (by rw [← natStr_data, ← natStr_data, h])

lemma goodSeg_natStr (n : Nat) : goodSeg (toString n) :=
  ⟨natStr_ne_empty n, natStr_no_dot n⟩

/-! ### Dot-joined keys of good paths are injective -/

lemma append_ne_empty_left (a b : String) (h : a ≠ "") : a ++ b ≠ "" := by
  intro hab
  have hdata : a.data ++ b.data = [] := by rw [← String.data_append, hab]
  exact h (String.ext (List.append_eq_nil.mp hdata).1)

/-- Cancelling a dot-free block before a dot-or-end boundary. -/
lemma segCancel :
    ∀ a b t1 t2 : List Char, (∀ c ∈ a, c ≠ '.') → (∀ c ∈ b, c ≠ '.') →
      (t1 = [] ∨ ∃ r, t1 = '.' :: r) → (t2 = [] ∨ ∃ r, t2 = '.' :: r) →
      a ++ t1 = b ++ t2 → a = b ∧ t1 = t2 := by
  intro a
  induction a with
  | nil =>
    intro b t1 t2 _ hb ht1 _ heq
    cases b with
    | nil => exact ⟨rfl, heq⟩
    | cons c b2 =>
      rw [List.nil_append, List.cons_append] at heq
      rcases ht1 with h | ⟨r, h⟩
      · rw [h] at heq; cases heq
      · rw [h] at heq
        injection heq with h1 _
        exact absurd h1 (Ne.symm (hb c (List.mem_cons_self c b2)))
  | cons c a2 ih =>
    intro b t1 t2 ha hb ht1 ht2 heq
    cases b with
    | nil =>
      rw [List.nil_append, List.cons_append] at heq
      rcases ht2 with h | ⟨r, h⟩
      · rw [h] at heq; cases heq
      · rw [h] at heq
        injection heq with h1 _
        exact absurd h1 (ha c (List.mem_cons_self c a2))
    | cons d b2 =>
      rw [List.cons_append, List.cons_append] at heq
      injection heq with h1 h2
      obtain ⟨hab, ht⟩ := ih b2 t1 t2
        (fun x hx => ha x (List.mem_cons_of_mem c hx))
        (fun x hx => hb x (List.mem_cons_of_mem d hx)) ht1 ht2 h2
      exact ⟨by rw [h1, hab], ht⟩

lemma encTail_shape (p : List String) :
    encTail p = [] ∨ ∃ r, encTail p = '.' :: r := by
  cases p with
  | nil => exact Or.inl rfl
  | cons s q => exact Or.inr ⟨s.data ++ encTail q, rfl⟩

lemma encTail_inj :
    ∀ p1 p2 : List String, goodPath p1 → goodPath p2 →
      encTail p1 = encTail p2 → p1 = p2 := by
  intro p1
  induction p1 with
  | nil =>
    intro p2 _ _ h
    cases p2 with
    | nil => rfl
    | cons s q => exact absurd h.symm (by simp [encTail])
  | cons s1 q1 ih =>
    intro p2 hg1 hg2 h
    cases p2 with
    | nil => exact absurd h (by simp [encTail])
    | cons s2 q2 =>
      simp only [encTail] at h
      injection h with _ h2
      obtain ⟨hs, ht⟩ := segCancel s1.data s2.data (encTail q1) (encTail q2)
        (hg1 s1 (List.mem_cons_self s1 q1)).2
        (hg2 s2 (List.mem_cons_self s2 q2)).2
        (encTail_shape q1) (encTail_shape q2) h2
      rw [String.ext hs,
        ih q2 (fun x hx => hg1 x (List.mem_cons_of_mem s1 hx))
          (fun x hx => hg2 x (List.mem_cons_of_mem s2 hx)) ht]

lemma keyOf_cons (pre s : String) (p : List String) :
    keyOf pre (s :: p) = keyOf (joinKey pre s) p := rfl

lemma keyOf_data :
    ∀ (p : List String) (pre : String), pre ≠ "" →
      (keyOf pre p).data = pre.data ++ encTail p := by
  intro p
  induction p with
  | nil => intro pre _; simp [keyOf, encTail]
  | cons s q ih =>
    intro pre h
    rw [keyOf_cons]
    have hj : joinKey pre s = pre ++ "." ++ s := by simp [joinKey, h]
    have hne : joinKey pre s ≠ "" := by
      rw [hj]; exact append_ne_empty_left _ _ (append_ne_empty_left _ _ h)
    rw [ih _ hne, hj]
    simp [encTail, String.data_append]

lemma keyOf_empty_cons (s : String) (p : List String) (hs : s ≠ "") :
    (keyOf "" (s :: p)).data = s.data ++ encTail p := by
  rw [keyOf_cons]
  have hj : joinKey "" s = s := by simp [joinKey]
  rw [hj, keyOf_data p s hs]

/-- The flat keys produced by the flattener are the dot-joinings of the
traversal paths, in traversal order. -/
lemma flattenObj_keys :
    ∀ (kvs : List (String × JSON)) (pre : String),
      (flattenObj kvs pre).map Prod.fst = (pathsObj kvs).map (keyOf pre) := by
  refine flattenObj.induct
    (fun v pre => (flattenVal v pre).map Prod.fst = (pathsVal v).map (keyOf pre))
    (fun kvs pre => (flattenObj kvs pre).map Prod.fst = (pathsObj kvs).map (keyOf pre))
    (fun xs i pre => (flattenList xs i pre).map Prod.fst = (pathsList xs i).map (keyOf pre))
    ?_ ?_ ?_ ?_ ?_ ?_ ?_
  · intro xs key ih
    exact ih
  · intro kvs key ih
    exact ih
  · intro v key harr hobj
    have hf : flattenVal v key = [(key, v)] := by
      cases v with
      | arr xs => exact absurd rfl (harr xs)
      | obj kvs => exact absurd rfl (hobj kvs)
      | null => rfl
      | bool b => rfl
      | num n => rfl
      | str s => rfl
    have hp : pathsVal v = [[]] := by
      cases v with
      | arr xs => exact absurd rfl (harr xs)
      | obj kvs => exact absurd rfl (hobj kvs)
      | null => rfl
      | bool b => rfl
      | num n => rfl
      | str s => rfl
    rw [hf, hp]
    rfl
  · intro i pre
    rfl
  · intro v rest i pre new_key ihv ihrest
    show (flattenVal v new_key ++ flattenList rest (i + 1) pre).map Prod.fst
      = ((pathsVal v).map (fun p => toString i :: p) ++ pathsList rest (i + 1)).map (keyOf pre)
    rw [List.map_append, List.map_append, ihv, ihrest, List.map_map]
    rfl
  · intro pre
    rfl
  · intro k v rest pre new_key ihv ihrest
    show (flattenVal v new_key ++ flattenObj rest pre).map Prod.fst
      = ((pathsVal v).map (fun p => k :: p) ++ pathsObj rest).map (keyOf pre)
    rw [List.map_append, List.map_append, ihv, ihrest, List.map_map]
    rfl

/-- Hygiene facts about the traversal paths of a clean dict: they are
pairwise distinct, made of good segments, and each starts with one of the
dict's keys. -/
lemma pathsObj_facts :
    ∀ kvs, cleanObj kvs = true →
      (pathsObj kvs).Nodup ∧ (∀ p ∈ pathsObj kvs, goodPath p) ∧
        (∀ p ∈ pathsObj kvs, ∃ k t, k ∈ kvs.map Prod.fst ∧ p = k :: t) := by
  refine pathsObj.induct
    (fun v => cleanVal v = true →
      (pathsVal v).Nodup ∧ ∀ p ∈ pathsVal v, goodPath p)
    (fun kvs => cleanObj kvs = true →
      (pathsObj kvs).Nodup ∧ (∀ p ∈ pathsObj kvs, goodPath p) ∧
        (∀ p ∈ pathsObj kvs, ∃ k t, k ∈ kvs.map Prod.fst ∧ p = k :: t))
    (fun xs i => cleanList xs = true →
      (pathsList xs i).Nodup ∧ (∀ p ∈ pathsList xs i, goodPath p) ∧
        (∀ p ∈ pathsList xs i, ∃ j t, i ≤ j ∧ p = toString j :: t))
    ?_ ?_ ?_ ?_ ?_ ?_ ?_
  · intro xs ih h
    obtain ⟨h1, h2, _⟩ := ih h
    exact ⟨h1, h2⟩
  · intro kvs ih h
    obtain ⟨h1, h2, _⟩ := ih h
    exact ⟨h1, h2⟩
  · intro t harr hobj _
    have hp : pathsVal t = [[]] := by
      cases t with
      | arr xs => exact absurd rfl (harr xs)
      | obj kvs => exact absurd rfl (hobj kvs)
      | null => rfl
      | bool b => rfl
      | num n => rfl
      | str s => rfl
    rw [hp]
    refine ⟨by simp, ?_⟩
    intro p hp2
    rw [List.mem_singleton] at hp2
    subst hp2
    intro s hs
    simp at hs
  · intro i _
    exact ⟨by simp [pathsList], by simp [pathsList], by simp [pathsList]⟩
  · intro v rest i ihv ihrest h
    have hc : cleanVal v = true ∧ cleanList rest = true := by
      simpa [cleanList, Bool.and_eq_true] using h
    obtain ⟨hv1, hv2⟩ := ihv hc.1
    obtain ⟨hr1, hr2, hr3⟩ := ihrest hc.2
    have hinj : Function.Injective (fun p : List String => toString i :: p) := by
      intro a b hab
      injection hab
    have hshow : pathsList (v :: rest) i
        = (pathsVal v).map (fun p => toString i :: p) ++ pathsList rest (i + 1) := rfl
    rw [hshow]
    refine ⟨?_, ?_, ?_⟩
    · rw [List.nodup_append]
      refine ⟨hv1.map hinj, hr1, ?_⟩
      intro p hpl hpr
      obtain ⟨q, _, hq2⟩ := List.mem_map.mp hpl
      obtain ⟨j, t, hij, hjt⟩ := hr3 p hpr
      rw [← hq2] at hjt
      injection hjt with hhead _
      exact absurd (natStr_inj i j hhead) (by omega)
    · intro p hp
      rcases List.mem_append.mp hp with hp | hp
      · obtain ⟨q, hq1, hq2⟩ := List.mem_map.mp hp
        subst hq2
        intro s hs
        rcases List.mem_cons.mp hs with hs | hs
        · exact hs ▸ goodSeg_natStr i
        · exact hv2 q hq1 s hs
      · exact hr2 p hp
    · intro p hp
      rcases List.mem_append.mp hp with hp | hp
      · obtain ⟨q, _, hq2⟩ := List.mem_map.mp hp
        exact ⟨i, q, Nat.le_refl i, hq2.symm⟩
      · obtain ⟨j, t, hij, hjt⟩ := hr3 p hp
        exact ⟨j, t, by omega, hjt⟩
  · intro _
    exact ⟨by simp [pathsObj], by simp [pathsObj], by simp [pathsObj]⟩
  · intro k v rest ihv ihrest h
    have hc : (k ≠ "" : Bool) = true ∧ k.data.all (fun c => c ≠ '.') = true ∧
        rest.any (fun kv => kv.1 = k) = false ∧ cleanVal v = true ∧
        cleanObj rest = true := by
      simpa [cleanObj, Bool.and_eq_true, Bool.not_eq_true', and_assoc] using h
    obtain ⟨hk1, hk2, hk3, hk4, hk5⟩ := hc
    have hkgood : goodSeg k := by
      refine ⟨by simpa using hk1, ?_⟩
      intro c hcmem
      have := List.all_eq_true.mp hk2 c hcmem
      simpa using this
    have hfresh : ∀ kv ∈ rest, kv.1 ≠ k := by
      intro kv hkv
      have := List.any_eq_false.mp hk3 kv hkv
      simpa using this
    obtain ⟨hv1, hv2⟩ := ihv hk4
    obtain ⟨hr1, hr2, hr3⟩ := ihrest hk5
    have hinj : Function.Injective (fun p : List String => k :: p) := by
      intro a b hab
      injection hab
    have hshow : pathsObj ((k, v) :: rest)
        = (pathsVal v).map (fun p => k :: p) ++ pathsObj rest := rfl
    rw [hshow]
    refine ⟨?_, ?_, ?_⟩
    · rw [List.nodup_append]
      refine ⟨hv1.map hinj, hr1, ?_⟩
      intro p hpl hpr
      obtain ⟨q, _, hq2⟩ := List.mem_map.mp hpl
      obtain ⟨k2, t, hk2mem, hjt⟩ := hr3 p hpr
      rw [← hq2] at hjt
      injection hjt with hhead _
      obtain ⟨kv, hkv1, hkv2⟩ := List.mem_map.mp hk2mem
      exact hfresh kv hkv1 (by rw [hkv2, ← hhead])
    · intro p hp
      rcases List.mem_append.mp hp with hp | hp
      · obtain ⟨q, hq1, hq2⟩ := List.mem_map.mp hp
        subst hq2
        intro s hs
        rcases List.mem_cons.mp hs with hs | hs
        · exact hs ▸ hkgood
        · exact hv2 q hq1 s hs
      · exact hr2 p hp
    · intro p hp
      rcases List.mem_append.mp hp with hp | hp
      · obtain ⟨q, _, hq2⟩ := List.mem_map.mp hp
        exact ⟨k, q, by simp, hq2.symm⟩
      · obtain ⟨k2, t, hk2mem, hjt⟩ := hr3 p hp
        refine ⟨k2, t, ?_, hjt⟩
        rw [List.map_cons]
        exact List.mem_cons_of_mem _ hk2mem

lemma foldl_odInsert_nodup {α : Type} :
    ∀ ps acc : List (String × α),
      ((acc ++ ps).map Prod.fst).Nodup →
      ps.foldl (fun a kv => odInsert a kv.1 kv.2) acc = acc ++ ps := by
  intro ps
  induction ps with
  | nil => intro acc _; simp
  | cons kv ps ih =>
    intro acc h
    obtain ⟨k, v⟩ := kv
    have hknot : k ∉ acc.map Prod.fst := by
      rw [List.map_append, List.map_cons] at h
      have hdisj := (List.nodup_append.mp h).2.2
      intro hk
      exact hdisj hk (List.mem_cons_self _ _)
    have hstep : odInsert acc k v = acc ++ [(k, v)] := by
      rw [odInsert, if_neg]
      simp only [List.any_eq_true, decide_eq_true_eq, not_exists]
      intro kv2 hkv2
      exact hknot (List.mem_map.mpr ⟨kv2, hkv2.1, hkv2.2⟩)
    show List.foldl _ (odInsert acc k v) ps = _
    rw [hstep, ih (acc ++ [(k, v)]) (by simpa [List.append_assoc] using h)]
    simp

lemma odBuild_eq_self {α : Type} (ps : List (String × α))
    (h : (ps.map Prod.fst).Nodup) : odBuild ps = ps := by
  have := foldl_odInsert_nodup ps [] (by simpa using h)
  simpa [odBuild] using this

/-- C7 (amended): a record whose dict keys are everywhere nonempty,
dot-free and pairwise distinct flattens to pairwise-distinct flat keys —
its traversal paths are unique and their dotted encodings stay distinct —
and the `OrderedDict` wrapper of `to_flat` then loses no pair.  (Without
the key hygiene the dotted encoding is not injective; see the
counterexample.) -/
theorem flat_keys_nodup_of_clean (g : List (String × JSON))
    (h : cleanObj g = true) :
    ((flattenObj g "").map Prod.fst).Nodup ∧ to_flat g = flattenObj g "" := by
  obtain ⟨hnd, hgood, hshape⟩ := pathsObj_facts g h
  have hkeys := flattenObj_keys g ""
  have hinjon : ∀ p1 ∈ pathsObj g, ∀ p2 ∈ pathsObj g,
      keyOf "" p1 = keyOf "" p2 → p1 = p2 := by
    intro p1 hp1 p2 hp2 heq
    obtain ⟨k1, t1, _, h1⟩ := hshape p1 hp1
    obtain ⟨k2, t2, _, h2⟩ := hshape p2 hp2
    subst h1
    subst h2
    have hg1 := hgood _ hp1
    have hg2 := hgood _ hp2
    have hk1 : goodSeg k1 := hg1 k1 (List.mem_cons_self _ _)
    have hk2 : goodSeg k2 := hg2 k2 (List.mem_cons_self _ _)
    have hdata : (keyOf "" (k1 :: t1)).data = (keyOf "" (k2 :: t2)).data := by
      rw [heq]
    rw [keyOf_empty_cons k1 t1 hk1.1, keyOf_empty_cons k2 t2 hk2.1] at hdata
    obtain ⟨hk, ht⟩ := segCancel k1.data k2.data _ _ hk1.2 hk2.2
      (encTail_shape t1) (encTail_shape t2) hdata
    rw [String.ext hk,
      encTail_inj t1 t2 (fun s hs => hg1 s (List.mem_cons_of_mem _ hs))
        (fun s hs => hg2 s (List.mem_cons_of_mem _ hs)) ht]
  have hn : ((flattenObj g "").map Prod.fst).Nodup := by
    rw [hkeys]
    exact List.Nodup.map_on hinjon hnd
  exact ⟨hn, odBuild_eq_self _ hn⟩

/-! ### Characterising `convert_fieldnames` -/

lemma foldl_ruleStep :
    ∀ (rules : List (String × String)) (l : List (String × String)),
      rules.foldl ruleStep l
        = l.map (fun kv => (kv.1, rules.foldl (applyRule kv.1) kv.2)) := by
  intro rules
  induction rules with
  | nil =>
    intro l
    simp
  | cons r rules ih =>
    intro l
    show List.foldl ruleStep (ruleStep l r) rules = _
    rw [ih (ruleStep l r), ruleStep, List.map_map]
    have hfg : ((fun kv : String × String =>
          (kv.1, List.foldl (applyRule kv.1) kv.2 rules)) ∘
        (fun kv : String × String =>
          if (re_fullmatch r.1 kv.1).isSome then (kv.1, re_sub r.1 r.2 kv.1)
          else kv))
        = fun kv : String × String =>
          (kv.1, List.foldl (applyRule kv.1) kv.2 (r :: rules)) := by
      funext kv
      show _ = (kv.1, List.foldl (applyRule kv.1) (applyRule kv.1 kv.2 r) rules)
      rw [applyRule]
      by_cases hc : (re_fullmatch r.1 kv.1).isSome
      · simp [Function.comp, hc]
      · simp [Function.comp, hc]
    rw [hfg]

lemma odBuild_selfzip_aux :
    ∀ (fns m : List String),
      (fns.map (fun f => (f, f))).foldl
          (fun acc kv => odInsert acc kv.1 kv.2) (m.map (fun f => (f, f)))
        = (addFields m fns).map (fun f => (f, f)) := by
  intro fns
  induction fns with
  | nil => intro m; rfl
  | cons f fns ih =>
    intro m
    have hstep : odInsert (m.map (fun f => (f, f))) f f
        = (if f ∈ m then m else m ++ [f]).map (fun f => (f, f)) := by
      by_cases hf : f ∈ m
      · have hany : (m.map (fun f => (f, f))).any (fun kv => kv.1 = f) = true := by
          simp only [List.any_eq_true, decide_eq_true_eq]
          exact ⟨(f, f), List.mem_map.mpr ⟨f, hf, rfl⟩, rfl⟩
        rw [odInsert, if_pos hany, if_pos hf, List.map_map]
        apply List.map_congr_left
        intro x _
        show (if x = f then (x, f) else (x, x)) = (x, x)
        by_cases hxf : x = f
        · subst hxf; simp
        · simp [hxf]
      · have hany : ¬ (m.map (fun f => (f, f))).any (fun kv => kv.1 = f) = true := by
          simp only [List.any_eq_true, decide_eq_true_eq, not_exists]
          intro kv hkv
          obtain ⟨x, hx1, hx2⟩ := List.mem_map.mp hkv.1
          subst hx2
          exact hf (hkv.2 ▸ hx1)
        rw [odInsert, if_neg hany, if_neg hf, List.map_append]
        rfl
    have haddf : addFields m (f :: fns)
        = addFields (if f ∈ m then m else m ++ [f]) fns := rfl
    show List.foldl _ (odInsert (m.map (fun f => (f, f))) f f) _ = _
    rw [hstep, ih (if f ∈ m then m else m ++ [f]), haddf]

lemma odBuild_selfzip (fns : List String) :
    odBuild (fns.map (fun f => (f, f)))
      = (addFields [] fns).map (fun f => (f, f)) :=
  odBuild_selfzip_aux fns []

/-! ### Characterising `to_flatfile` -/

lemma to_flatfileAux_fst :
    ∀ (gs : List (List (String × JSON))) data fns,
      (to_flatfileAux gs data fns).1 = data ++ gs.map to_flat := by
  intro gs
  induction gs with
  | nil => intro data fns; simp [to_flatfileAux]
  | cons g gs ih =>
    intro data fns
    show (to_flatfileAux gs (data ++ [to_flat g]) _).1 = _
    rw [ih]
    simp

lemma mem_addFields :
    ∀ (ks fns : List String) (f : String),
      f ∈ addFields fns ks ↔ f ∈ fns ∨ f ∈ ks := by
  intro ks
  induction ks with
  | nil => intro fns f; simp [addFields]
  | cons k ks ih =>
    intro fns f
    show f ∈ addFields (if k ∈ fns then fns else fns ++ [k]) ks ↔ _
    rw [ih]
    by_cases hk : k ∈ fns
    · rw [if_pos hk]
      constructor
      · rintro (h | h)
        · exact Or.inl h
        · exact Or.inr (List.mem_cons_of_mem _ h)
      · rintro (h | h)
        · exact Or.inl h
        · rcases List.mem_cons.mp h with rfl | h
          · exact Or.inl hk
          · exact Or.inr h
    · rw [if_neg hk]
      constructor
      · rintro (h | h)
        · rcases List.mem_append.mp h with h | h
          · exact Or.inl h
          · exact Or.inr (List.mem_cons.mpr (Or.inl (List.mem_singleton.mp h)))
        · exact Or.inr (List.mem_cons_of_mem _ h)
      · rintro (h | h)
        · exact Or.inl (List.mem_append.mpr (Or.inl h))
        · rcases List.mem_cons.mp h with rfl | h
          · exact Or.inl (List.mem_append.mpr (Or.inr (List.mem_singleton.mpr rfl)))
          · exact Or.inr h

lemma to_flatfileAux_snd_mem :
    ∀ (gs : List (List (String × JSON))) data fns (f : String),
      f ∈ (to_flatfileAux gs data fns).2 ↔
        f ∈ fns ∨ ∃ g, g ∈ gs ∧ f ∈ (to_flat g).map Prod.fst := by
  intro gs
  induction gs with
  | nil => intro data fns f; simp [to_flatfileAux]
  | cons g gs ih =>
    intro data fns f
    show f ∈ (to_flatfileAux gs (data ++ [to_flat g])
      (addFields fns ((to_flat g).map Prod.fst))).2 ↔ _
    rw [ih, mem_addFields]
    constructor
    · rintro ((h | h) | ⟨g2, hg2, hf⟩)
      · exact Or.inl h
      · exact Or.inr ⟨g, List.mem_cons_self _ _, h⟩
      · exact Or.inr ⟨g2, List.mem_cons_of_mem _ hg2, hf⟩
    · rintro (h | ⟨g2, hg2, hf⟩)
      · exact Or.inl (Or.inl h)
      · rcases List.mem_cons.mp hg2 with rfl | hg2
        · exact Or.inl (Or.inr hf)
        · exact Or.inr ⟨g2, hg2, hf⟩

/-! ### Claim theorems -/

/-- C1, counterexample: with fields `["a"]` and rules `[("a","b"),("b","c")]`
the value mapped to `"a"` after the first rule is `"b"`, which fully
matches the second rule's pattern, yet the final value is `"b"`: a later
rule does *not* act on the current (already-rewritten) string, so the
claimed layered substitution does not happen. -/
theorem convert_fieldnames_layering_cex :
    (re_fullmatch "b" "b").isSome = true ∧
      convert_fieldnames [("a", "b"), ("b", "c")] ["a"] = [("a", "b")] ∧
      convert_fieldnames [("a", "b"), ("b", "c")] ["a"] ≠ [("a", "c")] := by
  refine ⟨rfl, rfl, ?_⟩
  decide

/-- C1 (amended): `convert_fieldnames` iterates rules outer-loop and fields
inner-loop, but each rule is matched against, and substituted into, the
field's *original* name (the mapping key), never the current mapped
value: the final mapped value of every field is that of the last rule
matching its original name (`applyRules`), and rewrites never layer. -/
theorem convert_fieldnames_original_names
    (rules : List (String × String)) (fieldnames : List String) :
    convert_fieldnames rules fieldnames
      = (addFields [] fieldnames).map (fun f => (f, applyRules rules f)) := by
  rw [convert_fieldnames, odBuild_selfzip, foldl_ruleStep, List.map_map]
  rfl

/-- C2: `from_json` succeeds exactly when no validation error remains after
suppression filtering; on success the returned object carries the full
document, an empty error list and `valid = True`; on failure no object is
returned. -/
theorem from_json_ok_iff_no_errors (data : JSON) (engineErrors : List VError) :
    ((∃ c, from_json data engineErrors = Except.ok c) ↔
        get_errors engineErrors = []) ∧
      (∀ c, from_json data engineErrors = Except.ok c →
        c.data = data ∧ c.valid = true ∧ c.errors = []) := by
  constructor
  · constructor
    · rintro ⟨c, hc⟩
      by_contra hne
      have hfalse : ¬ (get_errors engineErrors).isEmpty = true := by
        rw [List.isEmpty_iff]
        exact hne
      rw [from_json] at hc
      simp only [if_neg hfalse] at hc
      cases hc
    · intro h
      exact ⟨⟨data, [], true⟩, by simp [from_json, h]⟩
  · intro c hc
    have hempty : (get_errors engineErrors).isEmpty = true := by
      by_contra hne
      rw [from_json] at hc
      simp only [if_neg hne] at hc
      cases hc
    have herrs : get_errors engineErrors = [] := List.isEmpty_iff.mp hempty
    rw [from_json] at hc
    simp only [herrs, List.isEmpty_nil, if_true] at hc
    injection hc with hc
    rw [← hc]
    exact ⟨rfl, rfl, rfl⟩

/-- C2 witness: the empty error stream loads `null` successfully into a
valid object with no errors. -/
theorem from_json_ok_iff_no_errors_witness :
    (Dataset.mk JSON.null [] true).data = JSON.null ∧
      (Dataset.mk JSON.null [] true).valid = true ∧
      (Dataset.mk JSON.null [] true).errors = [] :=
  (from_json_ok_iff_no_errors JSON.null []).2 (Dataset.mk JSON.null [] true) rfl

/-- C3: `get_errors` yields exactly the engine's errors minus the
suppressed ones (failing keyword `oneOf` with first alternative exactly
`{format: "date-time"}`); a document with only suppressed errors surfaces
none, a document with any other failure surfaces at least one. -/
theorem get_errors_suppresses_exactly_datetime_oneOf
    (errors : List VError) :
    (∀ e, e ∈ get_errors errors ↔ e ∈ errors ∧ suppressedError e = false) ∧
      ((∀ e ∈ errors, suppressedError e = true) → get_errors errors = []) ∧
      ((∃ e, e ∈ errors ∧ suppressedError e = false) →
        get_errors errors ≠ []) := by
  refine ⟨?_, ?_, ?_⟩
  · intro e
    rw [get_errors, List.mem_filter]
    simp [Bool.not_eq_true']
  · intro h
    rw [get_errors]
    rw [List.filter_eq_nil_iff]
    intro e he
    simp [h e he]
  · rintro ⟨e, he, hs⟩ hnil
    have hmem : e ∈ errors.filter (fun e => !suppressedError e) :=
      List.mem_filter.mpr ⟨he, by simp [hs]⟩
    rw [get_errors] at hnil
    rw [hnil] at hmem
    cases hmem

/-- C3 witness: a lone `oneOf`/date-time error is suppressed entirely, and
a lone `required` error survives filtering. -/
theorem get_errors_suppresses_exactly_datetime_oneOf_witness :
    get_errors [VError.mk "oneOf"
        (JSON.arr [JSON.obj [("format", JSON.str "date-time")]]) "m1"] = [] ∧
      get_errors [VError.mk "required" (JSON.str "id") "m2"] ≠ [] :=
  ⟨(get_errors_suppresses_exactly_datetime_oneOf _).2.1
      (fun e he => by rw [List.mem_singleton] at he; subst he; rfl),
    (get_errors_suppresses_exactly_datetime_oneOf _).2.2
      ⟨_, List.mem_singleton.mpr rfl, rfl⟩⟩

/-- C4: on the minimal schema
`{"id": {"title": "Identifier"}, "recipientOrganization": {"type": "array",
"items": {"properties": {"name": {"title": "Org Name"}}}}}` the derived
rename rules are exactly, and hence include, `("id", "Identifier")` and
`("recipientOrganization.([0-9]+).name",
"recipientOrganization:\1:Org Name")`: first-level patterns are the bare
names, array properties recurse instead of emitting, and nested levels
prepend `parent.([0-9]+).` and `parent:\1:`. -/
theorem recurse_names_minimal_schema :
    recurse_names
        [("id", SchemaProp.mk (some "Identifier") none []),
         ("recipientOrganization", SchemaProp.mk none (some "array")
           [("name", SchemaProp.mk (some "Org Name") none [])])]
        [] "" ""
      = [("id", "Identifier"),
         ("recipientOrganization.([0-9]+).name",
           "recipientOrganization:\\1:Org Name")] ∧
      ("id", "Identifier") ∈ recurse_names
        [("id", SchemaProp.mk (some "Identifier") none []),
         ("recipientOrganization", SchemaProp.mk none (some "array")
           [("name", SchemaProp.mk (some "Org Name") none [])])]
        [] "" "" ∧
      ("recipientOrganization.([0-9]+).name",
          "recipientOrganization:\\1:Org Name") ∈ recurse_names
        [("id", SchemaProp.mk (some "Identifier") none []),
         ("recipientOrganization", SchemaProp.mk none (some "array")
           [("name", SchemaProp.mk (some "Org Name") none [])])]
        [] "" "" := by
  have h : recurse_names
      [("id", SchemaProp.mk (some "Identifier") none []),
       ("recipientOrganization", SchemaProp.mk none (some "array")
         [("name", SchemaProp.mk (some "Org Name") none [])])]
      [] "" ""
      = [("id", "Identifier"),
         ("recipientOrganization.([0-9]+).name",
           "recipientOrganization:\\1:Org Name")] := by
    simp [recurse_names, odInsert]
  exact ⟨h, by rw [h]; simp, by rw [h]; simp⟩

/-- C5: a rename rule fires only on a full-string match (a suffix or an
enclosing string does not fire it) and the replacement is the regex
substitution of the template with numeric backreferences; in particular
`recipientOrganization.0.name` maps to `recipientOrganization:0:Org Name`
under the rule `("recipientOrganization.([0-9]+).name",
"recipientOrganization:\1:Org Name")`. -/
theorem convert_fieldnames_fullmatch_and_backrefs :
    convert_fieldnames
        [("recipientOrganization.([0-9]+).name",
          "recipientOrganization:\\1:Org Name")]
        ["recipientOrganization.0.name"]
      = [("recipientOrganization.0.name",
          "recipientOrganization:0:Org Name")] ∧
      convert_fieldnames
        [("recipientOrganization.([0-9]+).name",
          "recipientOrganization:\\1:Org Name")]
        ["recipientOrganization.12.name"]
      = [("recipientOrganization.12.name",
          "recipientOrganization:12:Org Name")] ∧
      convert_fieldnames
        [("recipientOrganization.([0-9]+).name",
          "recipientOrganization:\\1:Org Name")]
        ["recipientOrganization.0.names"]
      = [("recipientOrganization.0.names", "recipientOrganization.0.names")] ∧
      convert_fieldnames
        [("recipientOrganization.([0-9]+).name",
          "recipientOrganization:\\1:Org Name")]
        ["xrecipientOrganization.0.name"]
      = [("xrecipientOrganization.0.name", "xrecipientOrganization.0.name")] :=
  ⟨rfl, rfl, rfl, rfl⟩

/-- C6: flattening `{"a": 1, "b": [10, 20], "c": 2}` emits the pairs in
depth-first, left-to-right order with stringified list indices and
unchanged scalar values, i.e. the keys `["a", "b.0", "b.1", "c"]`. -/
theorem to_flat_traversal_order :
    flattenObj
        [("a", JSON.num 1), ("b", JSON.arr [JSON.num 10, JSON.num 20]),
         ("c", JSON.num 2)] ""
      = [("a", JSON.num 1), ("b.0", JSON.num 10), ("b.1", JSON.num 20),
         ("c", JSON.num 2)] ∧
      (flattenObj
          [("a", JSON.num 1), ("b", JSON.arr [JSON.num 10, JSON.num 20]),
           ("c", JSON.num 2)] "").map Prod.fst
        = ["a", "b.0", "b.1", "c"] :=
  ⟨rfl, rfl⟩

/-- C7, counterexample: the record `{"a": {"b": 1}, "a.b": 2}` flattens to
the key list `["a.b", "a.b"]`, which has a duplicate, so flat keys are
not duplicate-free for every record. -/
theorem flat_keys_duplicate_cex :
    (flattenObj [("a", JSON.obj [("b", JSON.num 1)]),
        ("a.b", JSON.num 2)] "").map Prod.fst = ["a.b", "a.b"] ∧
      ¬ ((flattenObj [("a", JSON.obj [("b", JSON.num 1)]),
        ("a.b", JSON.num 2)] "").map Prod.fst).Nodup := by
  refine ⟨rfl, ?_⟩
  decide

/-- C7 witness: a concrete clean record has duplicate-free flat keys and an
unchanged `OrderedDict` wrapping. -/
theorem flat_keys_nodup_of_clean_witness :
    cleanObj [("id", JSON.str "g1"),
        ("items", JSON.arr [JSON.num 1, JSON.num 2])] = true ∧
      (((flattenObj [("id", JSON.str "g1"),
          ("items", JSON.arr [JSON.num 1, JSON.num 2])] "").map
            Prod.fst).Nodup ∧
        to_flat [("id", JSON.str "g1"),
            ("items", JSON.arr [JSON.num 1, JSON.num 2])]
          = flattenObj [("id", JSON.str "g1"),
              ("items", JSON.arr [JSON.num 1, JSON.num 2])] "") :=
  ⟨by decide, flat_keys_nodup_of_clean _ (by decide)⟩

/-- C8: `to_flatfile` returns the rows in original record order, one
`to_flat` row per record, with a fieldname list holding exactly the union
of the rows' keys in first-seen order; a record lacking a field present in
another contributes no value for it while the union still lists it. -/
theorem to_flatfile_union_first_seen :
    (∀ grants : List (List (String × JSON)),
      (to_flatfile grants).1 = grants.map to_flat ∧
        ∀ f, f ∈ (to_flatfile grants).2 ↔
          ∃ g, g ∈ grants ∧ f ∈ (to_flat g).map Prod.fst) ∧
      to_flatfile [[("a", JSON.num 1), ("b", JSON.num 2)],
          [("a", JSON.num 3)]]
        = ([[("a", JSON.num 1), ("b", JSON.num 2)], [("a", JSON.num 3)]],
            ["a", "b"]) ∧
      (to_flat [("a", JSON.num 3)]).lookup "b" = none := by
  refine ⟨?_, rfl, rfl⟩
  intro grants
  constructor
  · rw [to_flatfile, to_flatfileAux_fst]
    rfl
  · intro f
    rw [to_flatfile, to_flatfileAux_snd_mem]
    simp

/-- C9: `from_file` dispatches only on the filetype tags `json`, `csv`,
`xlsx`, `xls` and `excel`; any other tag falls through the `if/elif`
chain without raising and the function returns `None`. -/
theorem from_file_unrecognized_returns_none (filetype : String)
    (h1 : filetype ≠ "json") (h2 : filetype ≠ "csv") (h3 : filetype ≠ "xlsx")
    (h4 : filetype ≠ "xls") (h5 : filetype ≠ "excel") :
    from_file filetype = Except.ok none := by
  rw [from_file, if_neg h1, if_neg h2, if_neg]
  rintro (h | h | h)
  · exact h3 h
  · exact h4 h
  · exact h5 h

/-- C9 witness: the tag `pdf` silently yields no loader. -/
theorem from_file_unrecognized_returns_none_witness :
    from_file "pdf" = Except.ok none :=
  from_file_unrecognized_returns_none "pdf" (by decide) (by decide) (by decide)
    (by decide) (by decide)

/-- C10: a field holding an empty list or empty dict contributes no pair at
all to the flattened output, so its key is absent from the result rather
than mapped to an empty value. -/
theorem flatten_empty_container_contributes_nothing :
    (∀ (k : String) (rest : List (String × JSON)) (pre : String),
        flattenObj ((k, JSON.arr []) :: rest) pre = flattenObj rest pre) ∧
      (∀ (k : String) (rest : List (String × JSON)) (pre : String),
        flattenObj ((k, JSON.obj []) :: rest) pre = flattenObj rest pre) ∧
      (flattenObj [("a", JSON.arr []), ("b", JSON.num 1)] "").map Prod.fst
        = ["b"] ∧
      (flattenObj [("a", JSON.obj []), ("b", JSON.num 1)] "").map Prod.fst
        = ["b"] := by
  refine ⟨?_, ?_, rfl, rfl⟩
  · intro k rest pre
    rfl
  · intro k rest pre
    rfl

end ThreeSixty
